import Mathlib

/-!
Verification of the concurrency/admission core and approval gate of the
claude-code-slack-bot repository.

The admission controller lives in `src/slack-handler.ts` (fields
`activeSessions`, `sessionQueues`, `activeConcurrency`, `maxConcurrency`,
and methods `handleMessage` (concurrency/queue check section),
`enqueueMessage`, `processNextInQueue`, `processClaudeQuery`).
The approval gate lives in `src/permission-handler.ts`
(`handleRequest`, `handlePermissionRequest`, `isAutoApproved`,
`rememberApproval`, `resolveApproval`, `respond`, `stop`,
`extractToolTargetPath`, `isPathWithinDirectory`).

The embedding is a small-step event system: each Lean function mirrors the
synchronous body of the corresponding TypeScript function, and asynchronous
boundaries of the source (incoming Slack/HTTP events, `setImmediate`
callbacks, `setTimeout` timers, completion of an agent query) are events of
the step relation, so that any event-loop interleaving of the source is a
trace of the model.
-/

namespace SlackBot

/-! ### Insertion-ordered maps (JS `Map` semantics) and sets (JS `Set`).

A JS `Map` iterates in insertion order; `set` on an existing key replaces the
value in place, on a fresh key appends at the end; `delete` removes the entry.
A JS `Set` likewise keeps insertion order; `add` appends if absent. -/

def mapGet {α : Type} (k : String) (l : List (String × α)) : Option α :=
  (l.find? (fun kv => kv.1 == k)).map (fun kv => kv.2)

def mapSet {α : Type} (k : String) (v : α) : List (String × α) → List (String × α)
  | [] => [(k, v)]
  | (k', v') :: rest => if k' == k then (k, v) :: rest else (k', v') :: mapSet k v rest

def mapDelete {α : Type} (k : String) (l : List (String × α)) : List (String × α) :=
  l.filter (fun kv => kv.1 != k)

def setAdd (k : String) (l : List String) : List String :=
  if k ∈ l then l else l ++ [k]

def setDelete (k : String) (l : List String) : List String :=
  l.filter (fun x => x != k)

/-! ### Admission controller (`src/slack-handler.ts`)

State of the `SlackHandler` concurrency control, plus ghost fields recording
observable history:
* `running` — the in-flight `processClaudeQuery` invocations (key, message id);
  an invocation is added when the body of `processClaudeQuery` starts
  (`activeSessions.add` / `activeConcurrency++`) and removed when its
  `finally` block runs.
* `scheduled` — dequeued items whose `processClaudeQuery` call has been
  scheduled through `setImmediate` but has not run yet (FIFO).
* `dispatched` / `completions` — ghost logs of dequeue and completion events.
* `nextId` — message ids are assigned in submission order. -/

structure SlackState where
  activeSessions : List String
  sessionQueues : List (String × List Nat)
  activeConcurrency : Int
  maxConcurrency : Nat
  running : List (String × Nat)
  scheduled : List (String × Nat)
  dispatched : List (String × Nat)
  completions : List (String × Nat)
  nextId : Nat
deriving DecidableEq

/-- `enqueueMessage` (slack-handler.ts): get-or-create the per-key queue and
push at its tail. -/
def enqueueMessage (key : String) (m : Nat) (s : SlackState) : SlackState :=
  let q := (mapGet key s.sessionQueues).getD []
  { s with sessionQueues := mapSet key (q ++ [m]) s.sessionQueues }

/-- The synchronous prefix of `processClaudeQuery`: mark the key active and
take a concurrency slot (lines `this.activeSessions.add(sessionKey);
this.activeConcurrency++;`). -/
def startQuery (key : String) (m : Nat) (s : SlackState) : SlackState :=
  { s with activeSessions := setAdd key s.activeSessions,
           activeConcurrency := s.activeConcurrency + 1,
           running := s.running ++ [(key, m)] }

/-- Body of the `for (const [sessionKey, queue] of this.sessionQueues)` loop of
`processNextInQueue`, recursing over the iteration suffix: at the first entry
whose key is not active and whose queue is non-empty, return if the global
cap is reached, otherwise shift the queue head, delete the key if the queue
became empty, and schedule the dequeued item through `setImmediate`. -/
def pNIQAux (s : SlackState) : List (String × List Nat) → SlackState
  | [] => s
  | (key, q) :: rest =>
    if key ∉ s.activeSessions ∧ q ≠ [] then
      if s.activeConcurrency ≥ (s.maxConcurrency : Int) then s
      else
        match q with
        | [] => s
        | m :: qrest =>
          { s with
            sessionQueues :=
              if qrest = [] then mapDelete key s.sessionQueues
              else mapSet key qrest s.sessionQueues,
            scheduled := s.scheduled ++ [(key, m)],
            dispatched := s.dispatched ++ [(key, m)] }
    else pNIQAux s rest

/-- `processNextInQueue` (slack-handler.ts). -/
def processNextInQueue (s : SlackState) : SlackState :=
  pNIQAux s s.sessionQueues

/-- The concurrency/queue-check section of `handleMessage`: if the key is
already active, or the global cap is reached, enqueue; otherwise start
`processClaudeQuery` immediately.  The message id is assigned in submission
order. -/
def handleMessage (key : String) (s : SlackState) : SlackState :=
  if key ∈ s.activeSessions then
    enqueueMessage key s.nextId { s with nextId := s.nextId + 1 }
  else if s.activeConcurrency ≥ (s.maxConcurrency : Int) then
    enqueueMessage key s.nextId { s with nextId := s.nextId + 1 }
  else startQuery key s.nextId { s with nextId := s.nextId + 1 }

/-- A pending `setImmediate` callback from `processNextInQueue` fires
(callbacks run in registration order) and executes the start of
`processClaudeQuery` for the dequeued item. -/
def runScheduledStep (s : SlackState) : SlackState :=
  match s.scheduled with
  | [] => s
  | (key, m) :: rest => startQuery key m { s with scheduled := rest }

/-- The `finally` block of `processClaudeQuery` for a running invocation:
delete the key from `activeSessions`, decrement `activeConcurrency`, then call
`processNextInQueue`.  Only an in-flight invocation can complete. -/
def releaseStep (key : String) (m : Nat) (s : SlackState) : SlackState :=
  if (key, m) ∈ s.running then
    processNextInQueue
      { s with running := s.running.erase (key, m),
               completions := s.completions ++ [(key, m)],
               activeSessions := setDelete key s.activeSessions,
               activeConcurrency := s.activeConcurrency - 1 }
  else s

/-- Events of the admission controller: a new message submission reaching the
concurrency/queue check, a pending `setImmediate` callback firing, and the
completion (success, error, or abort) of a running query. -/
inductive SlackEvent
  | submit (key : String)
  | runScheduled
  | release (key : String) (m : Nat)
deriving DecidableEq

def stepSlack (s : SlackState) (e : SlackEvent) : SlackState :=
  match e with
  | .submit key => handleMessage key s
  | .runScheduled => runScheduledStep s
  | .release key m => releaseStep key m s

def initSlack (maxC : Nat) : SlackState :=
  { activeSessions := [], sessionQueues := [], activeConcurrency := 0,
    maxConcurrency := maxC, running := [], scheduled := [], dispatched := [],
    completions := [], nextId := 0 }

def runSlack (maxC : Nat) (evs : List SlackEvent) : SlackState :=
  evs.foldl stepSlack (initSlack maxC)

/-! ### Characterization of `processNextInQueue` -/

/-- Specification-side description of the scan of `processNextInQueue`: the
first entry of the queue map (in insertion order) whose key is not active and
whose queue is non-empty. -/
def findEligible (active : List String) : List (String × List Nat) → Option (String × List Nat)
  | [] => none
  | (k, q) :: rest => if k ∉ active ∧ q ≠ [] then some (k, q) else findEligible active rest

/-! ### Per-key FIFO dispatch (C6) -/

/-- The sequence of message ids dispatched (dequeued) for key `k`, in dispatch
order. -/
def dispatchedFor (s : SlackState) (k : String) : List Nat :=
  (s.dispatched.filter (fun km => km.1 == k)).map (fun km => km.2)

/-- The queued message ids for key `k`, oldest first. -/
def queueFor (s : SlackState) (k : String) : List Nat :=
  (mapGet k s.sessionQueues).getD []

/-- Inductive invariant: queue-map keys are unique, and for each key the
dispatch log followed by the pending queue is strictly increasing in
submission order, with all ids below `nextId`. -/
def DispatchInv (s : SlackState) : Prop :=
  (s.sessionQueues.map Prod.fst).Nodup ∧
  ∀ k, List.Chain' (fun a b => a < b) (dispatchedFor s k ++ queueFor s k) ∧
       ∀ i ∈ dispatchedFor s k ++ queueFor s k, i < s.nextId

/-- Event trace exhibiting the deferred-start race: a queued message for key
`A` is dequeued and scheduled through `setImmediate`; before the scheduled
callback runs, a fresh submission for `A` is admitted (the key is no longer in
`activeSessions` and capacity is free); then the callback fires. -/
def raceTraceA : List SlackEvent :=
  [.submit "A", .submit "A", .release "A" 0, .submit "A", .runScheduled]

/-- Same race with `maxConcurrency = 1` and a second key, pushing
`activeConcurrency` above the cap. -/
def raceTraceB : List SlackEvent :=
  [.submit "A", .submit "A", .release "A" 0, .submit "B", .runScheduled]

/-- Event trace in which two queued messages for `A` (ids 2 and 3) are both
dequeued before either deferred start runs, so they execute concurrently and
complete in the order 3, 2. -/
def fifoRaceTrace : List SlackEvent :=
  [.submit "A", .submit "B", .submit "A", .submit "A", .release "A" 0,
   .release "B" 1, .runScheduled, .runScheduled, .release "A" 3, .release "A" 2]

/-- A small reachable state used to instantiate theorems about `releaseStep`:
one query running for key `A` (message 0) and one message queued for `A`
(message 1). -/
def sC7 : SlackState := runSlack 2 [.submit "A", .submit "A"]

/-! ### Approval gate (`src/permission-handler.ts`)

Paths are POSIX (`path.sep = "/"`); `resolvePath cwd p` is Node's
`path.resolve(p)` with process working directory `cwd`: make the path
absolute, then normalize `.`, `..` and empty segments (`..` cannot go above
the root).  The character-level string helpers (prefix test, split on `/`,
join with `/`) are implemented by structural recursion over `String.data` so
that every definition evaluates inside the kernel; they compute the same
functions as `String.startsWith`, `String.splitOn "/"` and
`String.intercalate "/"`. -/

def charsStartPred : List Char → List Char → Bool
  | _, [] => true
  | [], _ :: _ => false
  | c :: cs, p :: ps => c == p && charsStartPred cs ps

/-- `s` starts with `pre` (JS `String.prototype.startsWith`). -/
def strStartsWith (s pre : String) : Bool :=
  charsStartPred s.data pre.data

def splitOnChar (sep : Char) : List Char → List (List Char)
  | [] => [[]]
  | c :: cs =>
    let r := splitOnChar sep cs
    if c == sep then [] :: r
    else
      match r with
      | [] => [[c]]
      | g :: gs => (c :: g) :: gs

/-- Split a string on `/`. -/
def splitSlash (s : String) : List String :=
  (splitOnChar (Char.ofNat 47) s.data).map String.mk

/-- Join segments with `/`. -/
def joinSlash : List String → String
  | [] => ""
  | [s] => s
  | s :: rest => s ++ "/" ++ joinSlash rest

def normalizeSegments (segs : List String) : List String :=
  segs.foldl
    (fun acc seg =>
      if seg = "" ∨ seg = "." then acc
      else if seg = ".." then acc.dropLast
      else acc ++ [seg]) []

def resolvePath (cwd p : String) : String :=
  let full := if strStartsWith p "/" then p else cwd ++ "/" ++ p
  "/" ++ joinSlash (normalizeSegments (splitSlash full))

/-- `isPathWithinDirectory` (permission-handler.ts): the resolved target
equals the resolved directory or starts with it followed by the path
separator. -/
def isPathWithinDirectory (cwd targetPath directory : String) : Bool :=
  let resolved := resolvePath cwd targetPath
  let dir := resolvePath cwd directory
  resolved == dir || strStartsWith resolved (dir ++ "/")

/-- The tool-input fields `extractToolTargetPath` inspects. -/
structure ToolInput where
  file_path : Option String := none
  path : Option String := none
deriving DecidableEq

/-- JS truthiness of an optional string field: `undefined` and the empty
string are falsy. -/
def truthy : Option String → Option String
  | none => none
  | some s => if s = "" then none else some s

/-- `extractToolTargetPath` (permission-handler.ts): `input.file_path`, else
`input.path`, else no target (e.g. `Bash`). -/
def extractToolTargetPath (toolName : String) (input : ToolInput) : Option String :=
  match toolName, truthy input.file_path with
  | _, some p => some p
  | _, none => truthy input.path

inductive Behavior
  | allow
  | deny
deriving DecidableEq

/-- A completed write to a (deferred) HTTP response.  `handle` identifies the
`http.ServerResponse` object; `viaId` is the approval id through which
`respond` wrote it (`none` for direct writes in `handleRequest` /
auto-approval). -/
structure HttpResponse where
  handle : Nat
  status : Nat
  behavior : Option Behavior
  message : Option String
  viaId : Option String
deriving DecidableEq

/-- `PendingPermission` (permission-handler.ts), with the held
`http.ServerResponse` represented by its handle. -/
structure PendingPermission where
  httpRes : Nat
  channel : String
  threadTs : Option String
  user : Option String
  toolName : String
  input : ToolInput
  workingDirectory : Option String
  messageTs : Option String
deriving DecidableEq

/-- Parsed body of a `POST /permission-request`. -/
structure RequestData where
  tool_name : String
  input : ToolInput
  channel : String
  thread_ts : Option String
  user : Option String
  working_directory : Option String
deriving DecidableEq

/-- State of the `PermissionHandler`: the `pending` map, the approval memory
`approvedTools` (directory → approved tool names, insertion order), plus ghost
fields: the log of completed HTTP responses, the log of posted consent
prompts (approval id, tool name), and a counter allocating fresh response
handles. -/
structure PermState where
  pending : List (String × PendingPermission)
  approvedTools : List (String × List String)
  responses : List HttpResponse
  prompts : List (String × String)
  nextHandle : Nat
deriving DecidableEq

def permInit : PermState :=
  { pending := [], approvedTools := [], responses := [], prompts := [], nextHandle := 0 }

/-- `isAutoApproved` (permission-handler.ts): the tool must be remembered for
the working directory, and if the input carries a filesystem target, that
target must resolve into the directory. -/
def isAutoApproved (cwd : String) (s : PermState) (toolName : String) (input : ToolInput)
    (workingDirectory : String) : Bool :=
  match mapGet workingDirectory s.approvedTools with
  | none => false
  | some approved =>
    if toolName ∈ approved then
      match extractToolTargetPath toolName input with
      | some targetPath => isPathWithinDirectory cwd targetPath workingDirectory
      | none => true
    else false

/-- `rememberApproval` (permission-handler.ts): add the tool to the
directory's approved set (a JS `Set`: append if absent). -/
def rememberApproval (toolName workingDirectory : String) (s : PermState) : PermState :=
  let tools := (mapGet workingDirectory s.approvedTools).getD []
  let tools2 := if toolName ∈ tools then tools else tools ++ [toolName]
  { s with approvedTools := mapSet workingDirectory tools2 s.approvedTools }

/-- `respond` (permission-handler.ts): if the approval id is still pending,
delete it and complete its deferred HTTP response with
`behavior allow/deny` and the message; otherwise do nothing. -/
def respond (approvalId : String) (approved : Bool) (message : String) (s : PermState) :
    PermState :=
  match mapGet approvalId s.pending with
  | none => s
  | some p =>
    { s with
      pending := mapDelete approvalId s.pending,
      responses := s.responses ++
        [{ handle := p.httpRes, status := 200,
           behavior := some (if approved then Behavior.allow else Behavior.deny),
           message := some message, viaId := some approvalId }] }

/-- `resolveApproval` (permission-handler.ts): on a pending id, remember the
approval when approved and a (truthy) working directory was supplied, then
respond; the Slack `chat.update` of the prompt message is external and
best-effort and carries no handler state. -/
def resolveApproval (approvalId : String) (approved : Bool) (s : PermState) : PermState :=
  match mapGet approvalId s.pending with
  | none => s
  | some p =>
    let s1 :=
      match truthy p.workingDirectory with
      | some d => if approved then rememberApproval p.toolName d s else s
      | none => s
    respond approvalId approved (if approved then "Approved by user" else "Denied by user") s1

/-- Outcome of the `chat.postMessage` call posting the consent prompt. -/
inductive PostResult
  | success (ts : String)
  | failure
deriving DecidableEq

/-- The prompt path of `handlePermissionRequest`: store the
`PendingPermission` under the (generated) approval id, post the consent
prompt (recorded in the ghost `prompts` log), then either record the prompt
message ts on success or respond with a deny on posting failure.  The
5-minute timeout is a separate event (`timeoutFire`). -/
def promptUser (h : Nat) (approvalId : String) (post : PostResult) (data : RequestData)
    (s : PermState) : PermState :=
  let p : PendingPermission :=
    { httpRes := h, channel := data.channel, threadTs := data.thread_ts, user := data.user,
      toolName := data.tool_name, input := data.input,
      workingDirectory := data.working_directory, messageTs := none }
  let s1 := { s with pending := mapSet approvalId p s.pending,
                     prompts := s.prompts ++ [(approvalId, data.tool_name)] }
  match post with
  | .success ts =>
    { s1 with pending := mapSet approvalId { p with messageTs := some ts } s1.pending }
  | .failure => respond approvalId false "Failed to send Slack message" s1

/-- `handlePermissionRequest` (permission-handler.ts): auto-approval check
first (truthy working directory plus `isAutoApproved` answers the deferred
response with `allow` immediately, creating nothing), otherwise prompt. -/
def handlePermissionRequest (cwd : String) (h : Nat) (approvalId : String) (post : PostResult)
    (data : RequestData) (s : PermState) : PermState :=
  match truthy data.working_directory with
  | some wd =>
    if isAutoApproved cwd s data.tool_name data.input wd then
      { s with responses := s.responses ++
          [{ handle := h, status := 200, behavior := some Behavior.allow,
             message := some "Auto-approved (previously approved for this directory)",
             viaId := none }] }
    else promptUser h approvalId post data s
  | none => promptUser h approvalId post data s

inductive HttpMethod
  | post
  | other
deriving DecidableEq

/-- `handleRequest` (permission-handler.ts): `POST /permission-request` with a
parseable body goes to `handlePermissionRequest`; an unparseable body is
answered `400 deny "Invalid request"`; any other path or method is answered
`404`.  `body = none` models `JSON.parse` throwing.  A fresh response handle
is allocated for the incoming `http.ServerResponse`. -/
def handleRequest (cwd : String) (approvalId : String) (post : PostResult)
    (method : HttpMethod) (url : String) (body : Option RequestData) (s : PermState) :
    PermState :=
  let h := s.nextHandle
  let s1 := { s with nextHandle := h + 1 }
  if method = HttpMethod.post ∧ url = "/permission-request" then
    match body with
    | some data => handlePermissionRequest cwd h approvalId post data s1
    | none =>
      { s1 with responses := s1.responses ++
          [{ handle := h, status := 400, behavior := some Behavior.deny,
             message := some "Invalid request", viaId := none }] }
  else
    { s1 with responses := s1.responses ++
        [{ handle := h, status := 404, behavior := none, message := none, viaId := none }] }

/-- The 5-minute `setTimeout` callback: if the id is still pending, respond
with the timeout deny. -/
def timeoutFire (approvalId : String) (s : PermState) : PermState :=
  if (mapGet approvalId s.pending).isSome then
    respond approvalId false "Permission request timed out" s
  else s

/-- `stop` (permission-handler.ts): respond to every pending approval with the
shutdown deny (iterating the pending map; `respond` deletes each entry). -/
def stopHandler (s : PermState) : PermState :=
  s.pending.foldl (fun acc kp => respond kp.1 false "Server shutting down" acc) s

/-- Events of the approval gate: an incoming HTTP request (with the generated
approval id, the outcome of the prompt post, method, url and parse result), a
human approve/deny button action, a timeout firing, and process shutdown. -/
inductive PermEvent
  | request (approvalId : String) (post : PostResult) (method : HttpMethod) (url : String)
      (body : Option RequestData)
  | resolve (approvalId : String) (approved : Bool)
  | timeout (approvalId : String)
  | shutdown
deriving DecidableEq

def stepPerm (cwd : String) (s : PermState) (e : PermEvent) : PermState :=
  match e with
  | .request approvalId post method url body =>
    handleRequest cwd approvalId post method url body s
  | .resolve approvalId approved => resolveApproval approvalId approved s
  | .timeout approvalId => timeoutFire approvalId s
  | .shutdown => stopHandler s

def runPermFrom (cwd : String) (s : PermState) (evs : List PermEvent) : PermState :=
  evs.foldl (stepPerm cwd) s

def runPerm (cwd : String) (evs : List PermEvent) : PermState :=
  runPermFrom cwd permInit evs

def PermReachable (cwd : String) (s : PermState) : Prop :=
  ∃ evs, runPerm cwd evs = s

def pendingHandles (s : PermState) : List Nat :=
  s.pending.map (fun kp => kp.2.httpRes)

def responseHandles (s : PermState) : List Nat :=
  s.responses.map (fun r => r.handle)

/-- All completed writes to the HTTP response with handle `h`. -/
def responsesFor (s : PermState) (h : Nat) : List HttpResponse :=
  s.responses.filter (fun r => r.handle == h)

/-- All responses written through `respond` for approval id `id`. -/
def responsesVia (s : PermState) (id : String) : List HttpResponse :=
  s.responses.filter (fun r => r.viaId == some id)

/-- Inductive invariant of the approval gate: pending response handles are
distinct, below the allocation counter, and not yet written; written handles
are distinct and below the counter. -/
def PermInv (s : PermState) : Prop :=
  (pendingHandles s).Nodup ∧
  (∀ h ∈ pendingHandles s, h < s.nextHandle ∧ h ∉ responseHandles s) ∧
  (responseHandles s).Nodup ∧
  (∀ h ∈ responseHandles s, h < s.nextHandle)

/-- A parsed permission request for `Bash` (no target path, no working
directory), used to instantiate theorems at concrete states. -/
def reqW4 : RequestData :=
  { tool_name := "Bash", input := {}, channel := "C", thread_ts := none, user := none,
    working_directory := none }

def evW4 : PermEvent :=
  PermEvent.request "id1" (PostResult.success "ts") HttpMethod.post "/permission-request"
    (some reqW4)

/-- Reachable approval-gate state with one pending approval (`id1`). -/
def sW4 : PermState := stepPerm "/" permInit evW4

def pW4 : PendingPermission :=
  { httpRes := 0, channel := "C", threadTs := none, user := none, toolName := "Bash",
    input := {}, workingDirectory := none, messageTs := some "ts" }

/-- A parsed permission request for `Write` with a target path and a working
directory. -/
def reqW5 : RequestData :=
  { tool_name := "Write", input := { file_path := some "/repo/a.txt" }, channel := "C",
    thread_ts := none, user := some "U", working_directory := some "/repo" }

def evW5 : PermEvent :=
  PermEvent.request "id2" (PostResult.success "ts2") HttpMethod.post "/permission-request"
    (some reqW5)

/-- Reachable approval-gate state with one pending approval (`id2`) carrying a
working directory. -/
def sW5 : PermState := stepPerm "/" permInit evW5

def pW5 : PendingPermission :=
  { httpRes := 0, channel := "C", threadTs := none, user := some "U", toolName := "Write",
    input := { file_path := some "/repo/a.txt" }, workingDirectory := some "/repo",
    messageTs := some "ts2" }

/-- Approval-gate state in which a human has already approved `Write` for the
directory `/repo`. -/
def sApproved : PermState :=
  { pending := [], approvedTools := [("/repo", ["Write"])], responses := [], prompts := [],
    nextHandle := 3 }

/-! ## Theorems -/

theorem mem_mapSet {α : Type} {k : String} {v : α} {l : List (String × α)} {x : String × α}
    (hx : x ∈ mapSet k v l) : x = (k, v) ∨ x ∈ l := by
  induction l with
  | nil => simp [mapSet] at hx; simp [hx]
  | cons kv rest ih =>
    obtain ⟨k', v'⟩ := kv
    by_cases h : k' = k
    · simp [mapSet, h] at hx
      rcases hx with h1 | h1
      · exact Or.inl h1
      · exact Or.inr (List.mem_cons_of_mem _ h1)
    · simp [mapSet, h] at hx
      rcases hx with h1 | h1
      · exact Or.inr (by simp [h1])
      · rcases ih h1 with h2 | h2
        · exact Or.inl h2
        · exact Or.inr (List.mem_cons_of_mem _ h2)

theorem mapGet_mapSet_self {α : Type} (k : String) (v : α) (l : List (String × α)) :
    mapGet k (mapSet k v l) = some v := by
  induction l with
  | nil => simp [mapGet, mapSet]
  | cons kv rest ih =>
    obtain ⟨k', v'⟩ := kv
    by_cases h : k' = k
    · simp [mapGet, mapSet, h]
    · simpa [mapGet, mapSet, h] using ih

theorem mapGet_mapSet_ne {α : Type} {k k' : String} (v : α) (l : List (String × α))
    (h : k' ≠ k) : mapGet k' (mapSet k v l) = mapGet k' l := by
  induction l with
  | nil => simp [mapGet, mapSet, Ne.symm h]
  | cons kv rest ih =>
    obtain ⟨k0, v0⟩ := kv
    by_cases h0 : k0 = k
    · simp [mapGet, mapSet, h0, Ne.symm h, h]
    · by_cases h1 : k0 = k'
      · simp [mapGet, mapSet, h0, h1, h]
      · simpa [mapGet, mapSet, h0, h1] using ih

theorem mapGet_mapDelete_self {α : Type} (k : String) (l : List (String × α)) :
    mapGet k (mapDelete k l) = none := by
  induction l with
  | nil => rfl
  | cons kv rest ih =>
    obtain ⟨k0, v0⟩ := kv
    by_cases h0 : k0 = k
    · simpa [mapDelete, h0] using ih
    · simp [mapGet, mapDelete, h0, ih]

theorem mapGet_mapDelete_ne {α : Type} {k k' : String} (l : List (String × α))
    (h : k' ≠ k) : mapGet k' (mapDelete k l) = mapGet k' l := by
  induction l with
  | nil => rfl
  | cons kv rest ih =>
    obtain ⟨k0, v0⟩ := kv
    by_cases h0 : k0 = k
    · simpa [mapGet, mapDelete, h0, Ne.symm h, h] using ih
    · by_cases h1 : k0 = k'
      · simp [mapGet, mapDelete, h0, h1, h]
      · simpa [mapGet, mapDelete, h0, h1] using ih

theorem keys_mapSet {α : Type} (k : String) (v : α) (l : List (String × α)) :
    (mapSet k v l).map Prod.fst =
      if k ∈ l.map Prod.fst then l.map Prod.fst else l.map Prod.fst ++ [k] := by
  induction l with
  | nil => simp [mapSet]
  | cons kv rest ih =>
    obtain ⟨k0, v0⟩ := kv
    by_cases h0 : k0 = k
    · simp [mapSet, h0]
    · by_cases h1 : k ∈ rest.map Prod.fst
      · simp [mapSet, h0, h1, Ne.symm h0, ih]
      · simp [mapSet, h0, h1, Ne.symm h0, ih]

theorem keys_mapSet_nodup {α : Type} {k : String} {v : α} {l : List (String × α)}
    (h : (l.map Prod.fst).Nodup) : ((mapSet k v l).map Prod.fst).Nodup := by
  rw [keys_mapSet]
  by_cases h1 : k ∈ l.map Prod.fst
  · simpa [h1] using h
  · simp only [h1, if_false]
    exact List.Nodup.append h (List.nodup_singleton k) (by simpa using h1)

theorem keys_mapDelete_nodup {α : Type} {k : String} {l : List (String × α)}
    (h : (l.map Prod.fst).Nodup) : ((mapDelete k l).map Prod.fst).Nodup :=
  h.sublist (List.Sublist.map _ (List.filter_sublist l))

theorem mapGet_of_mem_nodup {α : Type} {l : List (String × α)} {k : String} {q : α}
    (hnd : (l.map Prod.fst).Nodup) (hmem : (k, q) ∈ l) : mapGet k l = some q := by
  induction l with
  | nil => simp at hmem
  | cons kv rest ih =>
    obtain ⟨k0, v0⟩ := kv
    simp only [List.map_cons, List.nodup_cons, List.mem_map] at hnd
    rcases List.mem_cons.mp hmem with h1 | h1
    · cases h1
      simp [mapGet]
    · have hk0 : k0 ≠ k := by
        intro hk
        exact hnd.1 ⟨(k, q), h1, by simp [hk]⟩
      simpa [mapGet, hk0] using ih hnd.2 h1

theorem findEligible_mem {active : List String} {l : List (String × List Nat)}
    {k : String} {q : List Nat} (h : findEligible active l = some (k, q)) :
    (k, q) ∈ l ∧ k ∉ active ∧ q ≠ [] := by
  induction l with
  | nil => simp [findEligible] at h
  | cons kv rest ih =>
    obtain ⟨k0, q0⟩ := kv
    by_cases h0 : k0 ∉ active ∧ q0 ≠ []
    · simp [findEligible, h0] at h
      exact ⟨by simp [h.1, h.2], h.1 ▸ h.2 ▸ h0⟩
    · simp only [findEligible, h0, if_false] at h
      have := ih h
      exact ⟨List.mem_cons_of_mem _ this.1, this.2⟩

theorem pNIQAux_eq (t : SlackState) (l : List (String × List Nat)) :
    pNIQAux t l =
      match findEligible t.activeSessions l with
      | none => t
      | some (k, q) =>
        if t.activeConcurrency ≥ (t.maxConcurrency : Int) then t
        else
          match q with
          | [] => t
          | m :: qrest =>
            { t with
              sessionQueues :=
                if qrest = [] then mapDelete k t.sessionQueues
                else mapSet k qrest t.sessionQueues,
              scheduled := t.scheduled ++ [(k, m)],
              dispatched := t.dispatched ++ [(k, m)] } := by
  induction l with
  | nil => rfl
  | cons kv rest ih =>
    obtain ⟨k, q⟩ := kv
    by_cases h : k ∉ t.activeSessions ∧ q ≠ []
    · simp [pNIQAux, findEligible, h]
    · simp only [pNIQAux, findEligible, h, if_false]
      exact ih

theorem chain'_append_singleton {l : List Nat} {m : Nat}
    (hc : List.Chain' (fun a b => a < b) l) (hm : ∀ i ∈ l, i < m) :
    List.Chain' (fun a b => a < b) (l ++ [m]) := by
  induction l with
  | nil => simp
  | cons a l ih =>
    rcases l with _ | ⟨b, l⟩
    · simpa using hm a (by simp)
    · simp only [List.cons_append] at ih ⊢
      rw [List.chain'_cons]
      rw [List.chain'_cons] at hc
      refine ⟨hc.1, ih hc.2 ?_⟩
      intro i hi
      exact hm i (List.mem_cons_of_mem _ hi)

/-- C1: the claimed invariant `|ActiveSet| = activeCount ∧
activeCount ≤ maxConcurrency` fails on the code.  After the deferred-start
race (`raceTraceA`, `maxConcurrency = 2`) the reachable state has
`|activeSessions| = 1` but `activeConcurrency = 2`; and with
`maxConcurrency = 1` (`raceTraceB`) `activeConcurrency` reaches `2`,
exceeding the cap. -/
theorem admission_invariant_fails :
    (runSlack 2 raceTraceA).activeSessions.length = 1 ∧
    (runSlack 2 raceTraceA).activeConcurrency = 2 ∧
    (runSlack 1 raceTraceB).activeConcurrency = 2 ∧
    ¬ (runSlack 1 raceTraceB).activeConcurrency ≤ ((runSlack 1 raceTraceB).maxConcurrency : Int) := by
  decide

/-- C2: per-key mutual exclusion fails on the code.  After `raceTraceA` two
`processClaudeQuery` invocations for conversation key `A` are in flight at the
same instant: the freshly admitted submission and the deferred start of the
queued item. -/
theorem per_key_exclusion_fails :
    ((runSlack 2 raceTraceA).running.filter (fun km => km.1 == "A")).length = 2 := by
  decide

/-- C6 counterexample: completions for key `A` do not follow submission order.
Message ids are assigned in submission order, yet the completion log for `A`
after `fifoRaceTrace` is `[0, 3, 2]` — message 3 completes before message 2 —
so the "and hence complete in the order they were submitted" part of the
claim is false on the code. -/
theorem completions_not_fifo :
    ((runSlack 2 fifoRaceTrace).completions.filter (fun km => km.1 == "A")).map
        (fun km => km.2) = [0, 3, 2] ∧
    ¬ List.Chain' (fun a b => a < b)
        (((runSlack 2 fifoRaceTrace).completions.filter (fun km => km.1 == "A")).map
          (fun km => km.2)) := by
  have h : ((runSlack 2 fifoRaceTrace).completions.filter (fun km => km.1 == "A")).map
      (fun km => km.2) = [0, 3, 2] := by decide
  refine ⟨h, ?_⟩
  rw [h]
  intro hc
  simp [List.chain'_cons] at hc

theorem dispatchInv_of_eq (s t : SlackState) (hq : t.sessionQueues = s.sessionQueues)
    (hd : t.dispatched = s.dispatched) (hn : s.nextId ≤ t.nextId)
    (h : DispatchInv s) : DispatchInv t := by
  obtain ⟨hnd, hk⟩ := h
  refine ⟨by rw [hq]; exact hnd, ?_⟩
  intro k
  have hqf : queueFor t k = queueFor s k := by simp [queueFor, hq]
  have hdf : dispatchedFor t k = dispatchedFor s k := by simp [dispatchedFor, hd]
  rw [hqf, hdf]
  exact ⟨(hk k).1, fun i hi => lt_of_lt_of_le ((hk k).2 i hi) hn⟩

theorem dispatchInv_enqueue (key : String) (s : SlackState) (h : DispatchInv s) :
    DispatchInv (enqueueMessage key s.nextId { s with nextId := s.nextId + 1 }) := by
  obtain ⟨hnd, hk⟩ := h
  constructor
  · simpa [enqueueMessage] using keys_mapSet_nodup (k := key) hnd
  · intro k
    by_cases hkk : k = key
    · subst hkk
      have hd : dispatchedFor (enqueueMessage k s.nextId { s with nextId := s.nextId + 1 }) k =
          dispatchedFor s k := by
        simp [enqueueMessage, dispatchedFor]
      have hq : queueFor (enqueueMessage k s.nextId { s with nextId := s.nextId + 1 }) k =
          queueFor s k ++ [s.nextId] := by
        simp [enqueueMessage, queueFor, mapGet_mapSet_self]
      rw [hd, hq]
      constructor
      · rw [← List.append_assoc]
        exact chain'_append_singleton (hk k).1 (hk k).2
      · intro i hi
        have hni : (enqueueMessage k s.nextId { s with nextId := s.nextId + 1 }).nextId =
            s.nextId + 1 := rfl
        rw [hni]
        rcases List.mem_append.mp hi with hi | hi
        · exact lt_trans ((hk k).2 i (List.mem_append.mpr (Or.inl hi))) (Nat.lt_succ_self _)
        · rcases List.mem_append.mp hi with hi | hi
          · exact lt_trans ((hk k).2 i (List.mem_append.mpr (Or.inr hi))) (Nat.lt_succ_self _)
          · simp at hi
            simp [hi]
    · have hd : dispatchedFor (enqueueMessage key s.nextId { s with nextId := s.nextId + 1 }) k =
          dispatchedFor s k := by
        simp [enqueueMessage, dispatchedFor]
      have hq : queueFor (enqueueMessage key s.nextId { s with nextId := s.nextId + 1 }) k =
          queueFor s k := by
        simp [enqueueMessage, queueFor, mapGet_mapSet_ne _ _ hkk]
      rw [hd, hq]
      exact ⟨(hk k).1, fun i hi => lt_trans ((hk k).2 i hi) (Nat.lt_succ_self _)⟩

theorem dispatchInv_dispatch (t : SlackState) (k0 : String) (m0 : Nat) (qrest : List Nat)
    (h : DispatchInv t) (hget : mapGet k0 t.sessionQueues = some (m0 :: qrest)) :
    DispatchInv { t with
      sessionQueues :=
        if qrest = [] then mapDelete k0 t.sessionQueues else mapSet k0 qrest t.sessionQueues,
      scheduled := t.scheduled ++ [(k0, m0)],
      dispatched := t.dispatched ++ [(k0, m0)] } := by
  obtain ⟨hnd, hk⟩ := h
  have hqt : queueFor t k0 = m0 :: qrest := by simp [queueFor, hget]
  constructor
  · by_cases hqe : qrest = []
    · simpa [hqe] using keys_mapDelete_nodup (k := k0) hnd
    · simpa [hqe] using keys_mapSet_nodup (k := k0) (v := qrest) hnd
  · intro k
    by_cases hkk : k = k0
    · subst hkk
      have hd : dispatchedFor { t with
          sessionQueues :=
            if qrest = [] then mapDelete k t.sessionQueues else mapSet k qrest t.sessionQueues,
          scheduled := t.scheduled ++ [(k, m0)],
          dispatched := t.dispatched ++ [(k, m0)] } k = dispatchedFor t k ++ [m0] := by
        simp [dispatchedFor]
      have hq2 : queueFor { t with
          sessionQueues :=
            if qrest = [] then mapDelete k t.sessionQueues else mapSet k qrest t.sessionQueues,
          scheduled := t.scheduled ++ [(k, m0)],
          dispatched := t.dispatched ++ [(k, m0)] } k = qrest := by
        by_cases hqe : qrest = []
        · simp [queueFor, hqe, mapGet_mapDelete_self]
        · simp [queueFor, hqe, mapGet_mapSet_self]
      rw [hd, hq2]
      have hchain := (hk k).1
      rw [hqt] at hchain
      constructor
      · rw [List.append_assoc, List.singleton_append]
        exact hchain
      · intro i hi
        apply (hk k).2
        rw [hqt]
        rcases List.mem_append.mp hi with hi | hi
        · rcases List.mem_append.mp hi with hi | hi
          · exact List.mem_append.mpr (Or.inl hi)
          · simp at hi
            subst hi
            exact List.mem_append.mpr (Or.inr (by simp))
        · exact List.mem_append.mpr (Or.inr (by simp [hi]))
    · have hd : dispatchedFor { t with
          sessionQueues :=
            if qrest = [] then mapDelete k0 t.sessionQueues else mapSet k0 qrest t.sessionQueues,
          scheduled := t.scheduled ++ [(k0, m0)],
          dispatched := t.dispatched ++ [(k0, m0)] } k = dispatchedFor t k := by
        simp [dispatchedFor, List.filter_append, Ne.symm hkk]
      have hq2 : queueFor { t with
          sessionQueues :=
            if qrest = [] then mapDelete k0 t.sessionQueues else mapSet k0 qrest t.sessionQueues,
          scheduled := t.scheduled ++ [(k0, m0)],
          dispatched := t.dispatched ++ [(k0, m0)] } k = queueFor t k := by
        by_cases hqe : qrest = []
        · simp [queueFor, hqe, mapGet_mapDelete_ne _ hkk]
        · simp [queueFor, hqe, mapGet_mapSet_ne _ _ hkk]
      rw [hd, hq2]
      exact hk k

theorem dispatchInv_step (s : SlackState) (e : SlackEvent) (h : DispatchInv s) :
    DispatchInv (stepSlack s e) := by
  cases e with
  | submit key =>
    show DispatchInv (handleMessage key s)
    unfold handleMessage
    by_cases h1 : key ∈ s.activeSessions
    · simpa [h1] using dispatchInv_enqueue key s h
    · by_cases h2 : s.activeConcurrency ≥ (s.maxConcurrency : Int)
      · simpa [h1, h2] using dispatchInv_enqueue key s h
      · simp only [h1, h2, if_false, if_true]
        exact dispatchInv_of_eq s _ rfl rfl (Nat.le_succ _) h
  | runScheduled =>
    show DispatchInv (runScheduledStep s)
    unfold runScheduledStep
    cases hs : s.scheduled with
    | nil => exact h
    | cons km rest =>
      obtain ⟨key, m⟩ := km
      exact dispatchInv_of_eq s _ rfl rfl le_rfl h
  | release key m =>
    show DispatchInv (releaseStep key m s)
    unfold releaseStep
    by_cases hmem : (key, m) ∈ s.running
    · simp only [hmem, if_true]
      rw [processNextInQueue, pNIQAux_eq]
      have h1 : DispatchInv
          { s with running := s.running.erase (key, m),
                   completions := s.completions ++ [(key, m)],
                   activeSessions := setDelete key s.activeSessions,
                   activeConcurrency := s.activeConcurrency - 1 } :=
        dispatchInv_of_eq s _ rfl rfl le_rfl h
      cases hfe : findEligible (setDelete key s.activeSessions) s.sessionQueues with
      | none => exact h1
      | some kq =>
        obtain ⟨k0, q⟩ := kq
        obtain ⟨hmemq, hact, hne⟩ := findEligible_mem hfe
        by_cases hcap :
            s.activeConcurrency - 1 ≥ (s.maxConcurrency : Int)
        · simp only [hcap, if_true]
          exact h1
        · cases q with
          | nil => exact absurd rfl hne
          | cons m0 qrest =>
            simp only [hcap, if_false]
            exact dispatchInv_dispatch _ k0 m0 qrest h1 (mapGet_of_mem_nodup h1.1 hmemq)
    · simp only [hmem, if_false]
      exact h

theorem dispatchInv_foldl (evs : List SlackEvent) :
    ∀ s : SlackState, DispatchInv s → DispatchInv (evs.foldl stepSlack s) := by
  induction evs with
  | nil => exact fun s h => h
  | cons e evs ih => exact fun s h => ih _ (dispatchInv_step s e h)

theorem dispatchInv_run (maxC : Nat) (evs : List SlackEvent) :
    DispatchInv (runSlack maxC evs) := by
  have hinit : DispatchInv (initSlack maxC) := by
    constructor
    · simp [initSlack]
    · intro k
      simp [initSlack, dispatchedFor, queueFor, mapGet]
  exact dispatchInv_foldl evs (initSlack maxC) hinit

/-- C6 (amended): queued requests are dispatched in strict FIFO order per
conversation key.  In every reachable state of the admission controller, the
dispatch log for a key `k` is strictly increasing in submission order (message
ids are assigned in submission order), and every id still queued for `k`
exceeds every id already dispatched for `k` — enqueue appends at the tail and
dispatch removes only the head.  (Completion order is not covered: see the
counterexample `completions_not_fifo`.) -/
theorem queued_dispatch_fifo (maxC : Nat) (evs : List SlackEvent) (k : String) :
    List.Chain' (fun a b => a < b) (dispatchedFor (runSlack maxC evs) k) ∧
    ∀ i ∈ dispatchedFor (runSlack maxC evs) k, ∀ j ∈ queueFor (runSlack maxC evs) k, i < j := by
  have h := ((dispatchInv_run maxC evs).2 k).1
  have hp : List.Pairwise (fun a b => a < b)
      (dispatchedFor (runSlack maxC evs) k ++ queueFor (runSlack maxC evs) k) :=
    List.chain'_iff_pairwise.mp h
  rw [List.pairwise_append] at hp
  exact ⟨List.chain'_iff_pairwise.mpr hp.1, hp.2.2⟩

/-- C7: each release starts at most one queued item.  After removing the
finished key from the active set and decrementing the counter, the scan of
`processNextInQueue` selects the first key in queue-map insertion order that
is not active and has a non-empty queue (`findEligible`); if no key is
eligible, or the global cap is already reached, nothing is dequeued; otherwise
exactly one item — the head of that key's queue — is removed, the key is
deleted from the map if its queue became empty, and the item is appended to
the deferred-start list (`setImmediate`), never started inline (`running` only
shrinks) and never more than one per release. -/
theorem release_dispatches_at_most_one (s : SlackState) (key : String) (m : Nat)
    (hrun : (key, m) ∈ s.running) :
    (releaseStep key m s).activeSessions = setDelete key s.activeSessions ∧
    (releaseStep key m s).activeConcurrency = s.activeConcurrency - 1 ∧
    (releaseStep key m s).running = s.running.erase (key, m) ∧
    ((releaseStep key m s).scheduled = s.scheduled ∨
      ∃ e, (releaseStep key m s).scheduled = s.scheduled ++ [e]) ∧
    (findEligible (setDelete key s.activeSessions) s.sessionQueues = none →
      (releaseStep key m s).sessionQueues = s.sessionQueues ∧
      (releaseStep key m s).scheduled = s.scheduled) ∧
    (∀ k0 q, findEligible (setDelete key s.activeSessions) s.sessionQueues = some (k0, q) →
      s.activeConcurrency - 1 ≥ (s.maxConcurrency : Int) →
      (releaseStep key m s).sessionQueues = s.sessionQueues ∧
      (releaseStep key m s).scheduled = s.scheduled) ∧
    (∀ k0 q, findEligible (setDelete key s.activeSessions) s.sessionQueues = some (k0, q) →
      ¬ s.activeConcurrency - 1 ≥ (s.maxConcurrency : Int) →
      ∃ m0 qrest, q = m0 :: qrest ∧
        (releaseStep key m s).scheduled = s.scheduled ++ [(k0, m0)] ∧
        (releaseStep key m s).dispatched = s.dispatched ++ [(k0, m0)] ∧
        (releaseStep key m s).sessionQueues =
          (if qrest = [] then mapDelete k0 s.sessionQueues
           else mapSet k0 qrest s.sessionQueues)) := by
  unfold releaseStep
  rw [if_pos hrun, processNextInQueue, pNIQAux_eq]
  cases hfe : findEligible (setDelete key s.activeSessions) s.sessionQueues with
  | none =>
    dsimp only
    refine ⟨rfl, rfl, rfl, Or.inl rfl, fun _ => ⟨rfl, rfl⟩, ?_, ?_⟩ <;>
      exact fun k0 q hcontra => absurd hcontra (by simp)
  | some kq =>
    obtain ⟨k0, q⟩ := kq
    obtain ⟨hmemq, hact, hne⟩ := findEligible_mem hfe
    dsimp only
    by_cases hcap : s.activeConcurrency - 1 ≥ (s.maxConcurrency : Int)
    · rw [if_pos hcap]
      refine ⟨rfl, rfl, rfl, Or.inl rfl, fun hc => by simp at hc, ?_, ?_⟩
      · exact fun _ _ _ _ => ⟨rfl, rfl⟩
      · exact fun _ _ _ hc => absurd hcap hc
    · rw [if_neg hcap]
      cases q with
      | nil => exact absurd rfl hne
      | cons m0 qrest =>
        dsimp only
        refine ⟨rfl, rfl, rfl, Or.inr ⟨(k0, m0), rfl⟩, fun hc => by simp at hc, ?_, ?_⟩
        · exact fun k1 q1 hq1 hcap1 => absurd hcap1 hcap
        · intro k1 q1 hq1 _
          simp only [Option.some.injEq, Prod.mk.injEq] at hq1
          obtain ⟨hk1, hq1⟩ := hq1
          subst hk1
          subst hq1
          exact ⟨m0, qrest, rfl, rfl, rfl, rfl⟩

/-- Witness for `release_dispatches_at_most_one` at the concrete state `sC7`
(key `A` running message 0, message 1 queued): the hypothesis holds and the
release schedules at most one queued item. -/
theorem release_dispatches_at_most_one_witness :
    ("A", 0) ∈ sC7.running ∧
    ((releaseStep "A" 0 sC7).scheduled = sC7.scheduled ∨
      ∃ e, (releaseStep "A" 0 sC7).scheduled = sC7.scheduled ++ [e]) :=
  ⟨by decide, (release_dispatches_at_most_one sC7 "A" 0 (by decide)).2.2.2.1⟩

theorem mapGet_eq_none_iff {α : Type} {k : String} {l : List (String × α)} :
    mapGet k l = none ↔ ∀ x ∈ l, x.1 ≠ k := by
  simp [mapGet, List.find?_eq_none]

theorem mem_of_mapGet_some {α : Type} {k : String} {v : α} {l : List (String × α)}
    (h : mapGet k l = some v) : (k, v) ∈ l := by
  unfold mapGet at h
  cases hf : l.find? (fun kv => kv.1 == k) with
  | none => rw [hf] at h; simp at h
  | some kv =>
    rw [hf] at h
    simp only [Option.map_some', Option.some.injEq] at h
    have hmem := List.mem_of_find?_eq_some hf
    have hk : kv.1 = k := by simpa using List.find?_some hf
    obtain ⟨k1, v1⟩ := kv
    simp only at hk h
    rw [hk, h] at hmem
    exact hmem

theorem mapDelete_of_get_none {α : Type} {k : String} {l : List (String × α)}
    (h : mapGet k l = none) : mapDelete k l = l := by
  rw [mapGet_eq_none_iff] at h
  unfold mapDelete
  rw [List.filter_eq_self]
  intro x hx
  simpa using h x hx

theorem respond_pending (approvalId : String) (b : Bool) (msg : String) (s : PermState) :
    (respond approvalId b msg s).pending = mapDelete approvalId s.pending := by
  unfold respond
  cases h : mapGet approvalId s.pending with
  | none => simp [mapDelete_of_get_none h]
  | some p => rfl

theorem respond_frame (approvalId : String) (b : Bool) (msg : String) (s : PermState) :
    (respond approvalId b msg s).approvedTools = s.approvedTools ∧
    (respond approvalId b msg s).nextHandle = s.nextHandle ∧
    (respond approvalId b msg s).prompts = s.prompts := by
  unfold respond
  cases mapGet approvalId s.pending with
  | none => exact ⟨rfl, rfl, rfl⟩
  | some p => exact ⟨rfl, rfl, rfl⟩

theorem respond_responses (approvalId : String) (b : Bool) (msg : String) (s : PermState) :
    (respond approvalId b msg s).responses = s.responses ∨
    ∃ p, mapGet approvalId s.pending = some p ∧
      (respond approvalId b msg s).responses = s.responses ++
        [{ handle := p.httpRes, status := 200,
           behavior := some (if b then Behavior.allow else Behavior.deny),
           message := some msg, viaId := some approvalId }] := by
  unfold respond
  cases h : mapGet approvalId s.pending with
  | none => exact Or.inl rfl
  | some p => exact Or.inr ⟨p, rfl, rfl⟩

theorem handle_notin_mapDelete {l : List (String × PendingPermission)} {id : String}
    {p : PendingPermission}
    (hnd : (l.map (fun kp => kp.2.httpRes)).Nodup) (hget : mapGet id l = some p) :
    p.httpRes ∉ (mapDelete id l).map (fun kp => kp.2.httpRes) := by
  intro hmem
  simp only [List.mem_map] at hmem
  obtain ⟨kp, hkp, hh⟩ := hmem
  have hkpl : kp ∈ l := List.mem_of_mem_filter hkp
  have hkpne : kp.1 ≠ id := by simpa using List.of_mem_filter hkp
  have hpl : (id, p) ∈ l := mem_of_mapGet_some hget
  have heq := List.inj_on_of_nodup_map hnd hkpl hpl hh
  exact hkpne (by simpa using congrArg Prod.fst heq)

theorem permInv_respond (approvalId : String) (b : Bool) (msg : String) {s : PermState}
    (h : PermInv s) : PermInv (respond approvalId b msg s) := by
  obtain ⟨hpn, hpf, hrn, hrl⟩ := h
  unfold respond
  cases hget : mapGet approvalId s.pending with
  | none => exact ⟨hpn, hpf, hrn, hrl⟩
  | some p =>
    have hsub : ((mapDelete approvalId s.pending).map (fun kp => kp.2.httpRes)).Sublist
        (s.pending.map (fun kp => kp.2.httpRes)) :=
      List.Sublist.map _ (List.filter_sublist s.pending)
    have hpmem : p.httpRes ∈ pendingHandles s :=
      List.mem_map.mpr ⟨(approvalId, p), mem_of_mapGet_some hget, rfl⟩
    refine ⟨?_, ?_, ?_, ?_⟩
    · exact hpn.sublist hsub
    · intro h2 hmem
      have hmem' : h2 ∈ pendingHandles s := hsub.subset hmem
      refine ⟨(hpf h2 hmem').1, ?_⟩
      simp only [responseHandles, List.map_append, List.map_cons, List.map_nil,
        List.mem_append, List.mem_singleton]
      rintro (hc | hc)
      · exact (hpf h2 hmem').2 hc
      · exact handle_notin_mapDelete hpn hget (hc ▸ hmem)
    · simp only [responseHandles, List.map_append, List.map_cons, List.map_nil]
      rw [List.nodup_append]
      refine ⟨hrn, List.nodup_singleton _, ?_⟩
      intro a ha hb
      simp only [List.mem_singleton] at hb
      subst hb
      exact (hpf _ hpmem).2 ha
    · intro h2 hmem
      simp only [responseHandles, List.map_append, List.map_cons, List.map_nil,
        List.mem_append, List.mem_singleton] at hmem
      rcases hmem with hc | hc
      · exact hrl h2 hc
      · subst hc
        exact (hpf _ hpmem).1

theorem mapSet_mapSet_same {α : Type} (k : String) (v v' : α) (l : List (String × α)) :
    mapSet k v' (mapSet k v l) = mapSet k v' l := by
  induction l with
  | nil => simp [mapSet]
  | cons kv rest ih =>
    obtain ⟨k0, v0⟩ := kv
    by_cases h : k0 = k
    · simp [mapSet, h]
    · simp [mapSet, h, ih]

theorem mem_map_mapSet {α β : Type} (f : String × α → β) {k : String} {v : α}
    {l : List (String × α)} {y : β} (hy : y ∈ (mapSet k v l).map f) :
    y = f (k, v) ∨ y ∈ l.map f := by
  simp only [List.mem_map] at hy ⊢
  obtain ⟨x, hx, hfx⟩ := hy
  rcases mem_mapSet hx with h1 | h1
  · left
    rw [← hfx, h1]
  · right
    exact ⟨x, h1, hfx⟩

theorem nodup_map_mapSet {α : Type} (f : String × α → Nat) {k : String} {v : α}
    {l : List (String × α)} {c : Nat}
    (hnd : (l.map f).Nodup) (hlt : ∀ kv ∈ l, f kv < c) (hv : f (k, v) = c) :
    ((mapSet k v l).map f).Nodup := by
  induction l with
  | nil => simp [mapSet]
  | cons kv rest ih =>
    obtain ⟨k0, v0⟩ := kv
    simp only [List.map_cons, List.nodup_cons] at hnd
    by_cases h : k0 = k
    · simp only [mapSet, h, beq_self_eq_true, if_true, List.map_cons, List.nodup_cons]
      refine ⟨?_, hnd.2⟩
      intro hc
      obtain ⟨x, hx, hfx⟩ := List.mem_map.mp hc
      have hlt2 := hlt x (List.mem_cons_of_mem _ hx)
      rw [hfx, hv] at hlt2
      exact lt_irrefl _ hlt2
    · rw [show mapSet k v ((k0, v0) :: rest) = (k0, v0) :: mapSet k v rest by simp [mapSet, h]]
      simp only [List.map_cons, List.nodup_cons]
      refine ⟨?_, ih hnd.2 (fun kv hkv => hlt kv (List.mem_cons_of_mem _ hkv))⟩
      intro hc
      rcases mem_map_mapSet f hc with h1 | h1
      · rw [hv] at h1
        exact absurd h1 (Nat.ne_of_lt (hlt _ (List.mem_cons_self _ _)))
      · exact hnd.1 h1

theorem permInv_append_fresh {s : PermState} (r : HttpResponse) (h : PermInv s)
    (hr : r.handle = s.nextHandle) :
    PermInv { s with nextHandle := s.nextHandle + 1, responses := s.responses ++ [r] } := by
  obtain ⟨hpn, hpf, hrn, hrl⟩ := h
  refine ⟨hpn, ?_, ?_, ?_⟩
  · intro h2 hmem
    refine ⟨lt_trans (hpf h2 hmem).1 (Nat.lt_succ_self _), ?_⟩
    simp only [responseHandles, List.map_append, List.map_cons, List.map_nil,
      List.mem_append, List.mem_singleton]
    rintro (hc | hc)
    · exact (hpf h2 hmem).2 hc
    · rw [hr] at hc
      exact absurd hc (Nat.ne_of_lt (hpf h2 hmem).1)
  · simp only [responseHandles, List.map_append, List.map_cons, List.map_nil]
    rw [List.nodup_append]
    refine ⟨hrn, List.nodup_singleton _, ?_⟩
    intro a ha hb
    simp only [List.mem_singleton] at hb
    subst hb
    rw [hr] at ha
    exact absurd (hrl _ ha) (lt_irrefl _)
  · intro h2 hmem
    simp only [responseHandles, List.map_append, List.map_cons, List.map_nil,
      List.mem_append, List.mem_singleton] at hmem
    rcases hmem with hc | hc
    · exact lt_trans (hrl h2 hc) (Nat.lt_succ_self _)
    · rw [hc, hr]
      exact Nat.lt_succ_self _

theorem permInv_pending_fresh {s : PermState} (h : PermInv s) (id : String)
    (p : PendingPermission) (hp : p.httpRes = s.nextHandle) (pr : List (String × String)) :
    PermInv { s with nextHandle := s.nextHandle + 1,
                     pending := mapSet id p s.pending, prompts := pr } := by
  obtain ⟨hpn, hpf, hrn, hrl⟩ := h
  refine ⟨?_, ?_, hrn, ?_⟩
  · exact nodup_map_mapSet _ hpn (fun kv hkv =>
      (hpf _ (List.mem_map.mpr ⟨kv, hkv, rfl⟩)).1) hp
  · intro h2 hmem
    rcases mem_map_mapSet _ hmem with hc | hc
    · simp only at hc
      rw [hc, hp]
      exact ⟨Nat.lt_succ_self _, fun hm => absurd (hrl _ hm) (lt_irrefl _)⟩
    · exact ⟨lt_trans (hpf h2 hc).1 (Nat.lt_succ_self _), (hpf h2 hc).2⟩
  · intro h2 hmem
    exact lt_trans (hrl h2 hmem) (Nat.lt_succ_self _)

theorem permInv_promptUser (id : String) (post : PostResult) (data : RequestData)
    {s : PermState} (h : PermInv s) :
    PermInv (promptUser s.nextHandle id post data { s with nextHandle := s.nextHandle + 1 }) := by
  unfold promptUser
  cases post with
  | success ts =>
    dsimp only
    rw [mapSet_mapSet_same]
    exact permInv_pending_fresh h id _ rfl _
  | failure =>
    dsimp only
    exact permInv_respond _ _ _ (permInv_pending_fresh h id _ rfl _)

theorem permInv_handleRequest (cwd approvalId : String) (post : PostResult)
    (method : HttpMethod) (url : String) (body : Option RequestData) {s : PermState}
    (h : PermInv s) : PermInv (handleRequest cwd approvalId post method url body s) := by
  unfold handleRequest
  by_cases hmu : method = HttpMethod.post ∧ url = "/permission-request"
  · rw [if_pos hmu]
    cases body with
    | none => exact permInv_append_fresh _ h rfl
    | some data =>
      unfold handlePermissionRequest
      dsimp only
      cases truthy data.working_directory with
      | none => exact permInv_promptUser approvalId post data h
      | some wd =>
        dsimp only
        by_cases hauto :
            isAutoApproved cwd { s with nextHandle := s.nextHandle + 1 } data.tool_name
              data.input wd
        · rw [if_pos hauto]
          exact permInv_append_fresh _ h rfl
        · rw [if_neg hauto]
          exact permInv_promptUser approvalId post data h
  · rw [if_neg hmu]
    exact permInv_append_fresh _ h rfl

theorem permInv_resolveApproval (approvalId : String) (b : Bool) {s : PermState}
    (h : PermInv s) : PermInv (resolveApproval approvalId b s) := by
  unfold resolveApproval
  cases hget : mapGet approvalId s.pending with
  | none => exact h
  | some p =>
    dsimp only
    cases truthy p.workingDirectory with
    | none => exact permInv_respond _ _ _ h
    | some d =>
      dsimp only
      cases b with
      | false => exact permInv_respond _ _ _ h
      | true =>
        exact permInv_respond _ _ _ (show PermInv (rememberApproval p.toolName d s) from h)

theorem permInv_timeoutFire (approvalId : String) {s : PermState} (h : PermInv s) :
    PermInv (timeoutFire approvalId s) := by
  unfold timeoutFire
  by_cases hp : (mapGet approvalId s.pending).isSome
  · rw [if_pos hp]
    exact permInv_respond _ _ _ h
  · rw [if_neg hp]
    exact h

theorem permInv_fold_respond (msg : String) :
    ∀ (l : List (String × PendingPermission)) (s : PermState), PermInv s →
      PermInv (l.foldl (fun acc kp => respond kp.1 false msg acc) s) := by
  intro l
  induction l with
  | nil => exact fun s h => h
  | cons kp rest ih => exact fun s h => ih _ (permInv_respond _ _ _ h)

theorem permInv_stopHandler {s : PermState} (h : PermInv s) : PermInv (stopHandler s) :=
  permInv_fold_respond _ s.pending s h

theorem permInv_step (cwd : String) (e : PermEvent) {s : PermState} (h : PermInv s) :
    PermInv (stepPerm cwd s e) := by
  cases e with
  | request approvalId post method url body =>
    exact permInv_handleRequest cwd approvalId post method url body h
  | resolve approvalId approved => exact permInv_resolveApproval approvalId approved h
  | timeout approvalId => exact permInv_timeoutFire approvalId h
  | shutdown => exact permInv_stopHandler h

theorem permInv_runFrom (cwd : String) (evs : List PermEvent) :
    ∀ s : PermState, PermInv s → PermInv (runPermFrom cwd s evs) := by
  induction evs with
  | nil => exact fun s h => h
  | cons e evs ih => exact fun s h => ih _ (permInv_step cwd e h)

theorem permInv_init : PermInv permInit := by
  refine ⟨?_, ?_, ?_, ?_⟩ <;> simp [permInit, pendingHandles, responseHandles]

theorem permInv_reachable (cwd : String) {s : PermState} (h : PermReachable cwd s) :
    PermInv s := by
  obtain ⟨evs, rfl⟩ := h
  exact permInv_runFrom cwd evs permInit permInv_init

theorem pendingHandles_mapDelete_sublist (id : String) (l : List (String × PendingPermission)) :
    ((mapDelete id l).map (fun kp => kp.2.httpRes)).Sublist
      (l.map (fun kp => kp.2.httpRes)) :=
  List.Sublist.map _ (List.filter_sublist l)

theorem respond_closed (approvalId : String) (b : Bool) (msg : String) {s : PermState}
    {h : Nat} (hcl : h ∉ pendingHandles s) :
    responsesFor (respond approvalId b msg s) h = responsesFor s h ∧
    h ∉ pendingHandles (respond approvalId b msg s) := by
  unfold respond
  cases hget : mapGet approvalId s.pending with
  | none => exact ⟨rfl, hcl⟩
  | some p =>
    have hph : p.httpRes ∈ pendingHandles s :=
      List.mem_map.mpr ⟨(approvalId, p), mem_of_mapGet_some hget, rfl⟩
    constructor
    · have hne : ¬ (p.httpRes == h) = true := by
        simp only [beq_iff_eq]
        intro he
        exact hcl (he ▸ hph)
      simp [responsesFor, List.filter_append, hne]
    · intro hc
      exact hcl ((pendingHandles_mapDelete_sublist approvalId s.pending).subset hc)

theorem step_closed (cwd : String) (e : PermEvent) {s : PermState} {h : Nat}
    (_hinv : PermInv s) (hcl : h ∉ pendingHandles s) (hlt : h < s.nextHandle) :
    responsesFor (stepPerm cwd s e) h = responsesFor s h ∧
    h ∉ pendingHandles (stepPerm cwd s e) ∧
    h < (stepPerm cwd s e).nextHandle := by
  have hfresh : ¬ (s.nextHandle == h) = true := by
    simp only [beq_iff_eq]
    intro he
    exact absurd (he ▸ hlt) (lt_irrefl _)
  cases e with
  | request approvalId post method url body =>
    show responsesFor (handleRequest cwd approvalId post method url body s) h =
        responsesFor s h ∧
      h ∉ pendingHandles (handleRequest cwd approvalId post method url body s) ∧
      h < (handleRequest cwd approvalId post method url body s).nextHandle
    unfold handleRequest
    by_cases hmu : method = HttpMethod.post ∧ url = "/permission-request"
    · rw [if_pos hmu]
      cases body with
      | none =>
        exact ⟨by simp [responsesFor, List.filter_append, hfresh], hcl,
          lt_trans hlt (Nat.lt_succ_self _)⟩
      | some data =>
        unfold handlePermissionRequest
        dsimp only
        have hprompt : responsesFor
              (promptUser s.nextHandle approvalId post data
                { s with nextHandle := s.nextHandle + 1 }) h = responsesFor s h ∧
            h ∉ pendingHandles
              (promptUser s.nextHandle approvalId post data
                { s with nextHandle := s.nextHandle + 1 }) ∧
            h < (promptUser s.nextHandle approvalId post data
                { s with nextHandle := s.nextHandle + 1 }).nextHandle := by
          unfold promptUser
          have hclSet : ∀ (p2 : PendingPermission), p2.httpRes = s.nextHandle →
              h ∉ (mapSet approvalId p2 s.pending).map (fun kp => kp.2.httpRes) := by
            intro p2 hp2 hc
            rcases mem_map_mapSet _ hc with h1 | h1
            · simp only [hp2] at h1
              exact absurd (h1 ▸ hlt) (lt_irrefl _)
            · exact hcl h1
          cases post with
          | success ts =>
            dsimp only
            rw [mapSet_mapSet_same]
            exact ⟨rfl, hclSet _ rfl, lt_trans hlt (Nat.lt_succ_self _)⟩
          | failure =>
            dsimp only
            have hc2 := respond_closed approvalId false "Failed to send Slack message"
              (s := { s with
                       pending := mapSet approvalId
                         { httpRes := s.nextHandle, channel := data.channel,
                           threadTs := data.thread_ts, user := data.user,
                           toolName := data.tool_name, input := data.input,
                           workingDirectory := data.working_directory,
                           messageTs := none } s.pending,
                       prompts := s.prompts ++ [(approvalId, data.tool_name)],
                       nextHandle := s.nextHandle + 1 }) (hclSet _ rfl)
            refine ⟨hc2.1, hc2.2, ?_⟩
            rw [(respond_frame _ _ _ _).2.1]
            exact lt_trans hlt (Nat.lt_succ_self _)
        cases truthy data.working_directory with
        | none => exact hprompt
        | some wd =>
          dsimp only
          by_cases hauto :
              isAutoApproved cwd { s with nextHandle := s.nextHandle + 1 } data.tool_name
                data.input wd
          · rw [if_pos hauto]
            exact ⟨by simp [responsesFor, List.filter_append, hfresh], hcl,
              lt_trans hlt (Nat.lt_succ_self _)⟩
          · rw [if_neg hauto]
            exact hprompt
    · rw [if_neg hmu]
      exact ⟨by simp [responsesFor, List.filter_append, hfresh], hcl,
        lt_trans hlt (Nat.lt_succ_self _)⟩
  | resolve approvalId approved =>
    show responsesFor (resolveApproval approvalId approved s) h = responsesFor s h ∧
      h ∉ pendingHandles (resolveApproval approvalId approved s) ∧
      h < (resolveApproval approvalId approved s).nextHandle
    unfold resolveApproval
    cases hget : mapGet approvalId s.pending with
    | none => exact ⟨rfl, hcl, hlt⟩
    | some p =>
      dsimp only
      cases truthy p.workingDirectory with
      | none =>
        have hc2 := respond_closed approvalId approved
          (if approved then "Approved by user" else "Denied by user") (s := s) hcl
        exact ⟨hc2.1, hc2.2, by rw [(respond_frame _ _ _ _).2.1]; exact hlt⟩
      | some d =>
        dsimp only
        cases approved with
        | false =>
          have hc2 := respond_closed approvalId false "Denied by user" (s := s) hcl
          exact ⟨hc2.1, hc2.2, by rw [(respond_frame _ _ _ _).2.1]; exact hlt⟩
        | true =>
          have hc2 := respond_closed approvalId true "Approved by user"
            (s := rememberApproval p.toolName d s)
            (show h ∉ pendingHandles s from hcl)
          exact ⟨hc2.1, hc2.2, by rw [(respond_frame _ _ _ _).2.1]; exact hlt⟩
  | timeout approvalId =>
    show responsesFor (timeoutFire approvalId s) h = responsesFor s h ∧
      h ∉ pendingHandles (timeoutFire approvalId s) ∧
      h < (timeoutFire approvalId s).nextHandle
    unfold timeoutFire
    by_cases hp : (mapGet approvalId s.pending).isSome
    · rw [if_pos hp]
      have hc2 := respond_closed approvalId false "Permission request timed out" (s := s) hcl
      exact ⟨hc2.1, hc2.2, by rw [(respond_frame _ _ _ _).2.1]; exact hlt⟩
    · rw [if_neg hp]
      exact ⟨rfl, hcl, hlt⟩
  | shutdown =>
    show responsesFor (stopHandler s) h = responsesFor s h ∧
      h ∉ pendingHandles (stopHandler s) ∧
      h < (stopHandler s).nextHandle
    unfold stopHandler
    have hgen : ∀ (l : List (String × PendingPermission)) (t : PermState),
        h ∉ pendingHandles t → t.nextHandle = s.nextHandle →
        responsesFor (l.foldl (fun acc kp => respond kp.1 false "Server shutting down" acc) t) h
            = responsesFor t h ∧
        h ∉ pendingHandles
            (l.foldl (fun acc kp => respond kp.1 false "Server shutting down" acc) t) ∧
        (l.foldl (fun acc kp => respond kp.1 false "Server shutting down" acc) t).nextHandle
            = s.nextHandle := by
      intro l
      induction l with
      | nil => exact fun t ht hn => ⟨rfl, ht, hn⟩
      | cons kp rest ih =>
        intro t ht hn
        have hc2 := respond_closed kp.1 false "Server shutting down" (s := t) ht
        have hrec := ih _ hc2.2 (by rw [(respond_frame _ _ _ _).2.1]; exact hn)
        exact ⟨hrec.1.trans hc2.1, hrec.2.1, hrec.2.2⟩
    have hres := hgen s.pending s hcl rfl
    exact ⟨hres.1, hres.2.1, hres.2.2 ▸ hlt⟩

theorem runFrom_closed (cwd : String) (evs : List PermEvent) :
    ∀ {s : PermState} {h : Nat}, PermInv s → h ∉ pendingHandles s → h < s.nextHandle →
      responsesFor (runPermFrom cwd s evs) h = responsesFor s h := by
  induction evs with
  | nil => exact fun _ _ _ => rfl
  | cons e evs ih =>
    intro s h hinv hcl hlt
    have hc := step_closed cwd e hinv hcl hlt
    have := ih (permInv_step cwd e hinv) hc.2.1 hc.2.2
    exact this.trans hc.1

/-- C4: an approval still pending when its 5-minute timeout fires has its
deferred HTTP response completed exactly once, with behavior `deny` and
message `Permission request timed out`, and it is never completed with
`allow`: after the timeout event, in every later state the complete write log
of that response handle is the single timeout-deny entry. -/
theorem timeout_denies_exactly_once (cwd : String) (s : PermState) (approvalId : String)
    (p : PendingPermission) (hreach : PermReachable cwd s)
    (hp : mapGet approvalId s.pending = some p) (evs : List PermEvent) :
    responsesFor (runPermFrom cwd (stepPerm cwd s (PermEvent.timeout approvalId)) evs)
        p.httpRes =
      [{ handle := p.httpRes, status := 200, behavior := some Behavior.deny,
         message := some "Permission request timed out", viaId := some approvalId }] := by
  have hinv := permInv_reachable cwd hreach
  have hph : p.httpRes ∈ pendingHandles s :=
    List.mem_map.mpr ⟨(approvalId, p), mem_of_mapGet_some hp, rfl⟩
  have hbefore : responsesFor s p.httpRes = [] := by
    rw [responsesFor, List.filter_eq_nil_iff]
    intro r hr
    simp only [beq_iff_eq]
    intro he
    exact (hinv.2.1 _ hph).2 (List.mem_map.mpr ⟨r, hr, he⟩)
  have hstep : stepPerm cwd s (PermEvent.timeout approvalId) =
      respond approvalId false "Permission request timed out" s := by
    show timeoutFire approvalId s = _
    unfold timeoutFire
    rw [if_pos (by simp [hp])]
  have hafter : responsesFor (stepPerm cwd s (PermEvent.timeout approvalId)) p.httpRes =
      [{ handle := p.httpRes, status := 200, behavior := some Behavior.deny,
         message := some "Permission request timed out", viaId := some approvalId }] := by
    rw [hstep]
    unfold respond
    rw [hp]
    dsimp only
    have hsplit : responsesFor
        { s with pending := mapDelete approvalId s.pending,
                 responses := s.responses ++
                   [{ handle := p.httpRes, status := 200,
                      behavior := some (if false then Behavior.allow else Behavior.deny),
                      message := some "Permission request timed out",
                      viaId := some approvalId }] } p.httpRes =
        responsesFor s p.httpRes ++
          [{ handle := p.httpRes, status := 200, behavior := some Behavior.deny,
             message := some "Permission request timed out", viaId := some approvalId }] := by
      simp [responsesFor, List.filter_append]
    rw [hsplit, hbefore]
    rfl
  have hclosed : p.httpRes ∉ pendingHandles (stepPerm cwd s (PermEvent.timeout approvalId)) := by
    have hpe : pendingHandles (stepPerm cwd s (PermEvent.timeout approvalId)) =
        (mapDelete approvalId s.pending).map (fun kp => kp.2.httpRes) := by
      rw [hstep, pendingHandles, respond_pending]
    rw [hpe]
    exact handle_notin_mapDelete hinv.1 hp
  have hlt2 : p.httpRes < (stepPerm cwd s (PermEvent.timeout approvalId)).nextHandle := by
    rw [hstep, (respond_frame _ _ _ _).2.1]
    exact (hinv.2.1 _ hph).1
  have hinv2 : PermInv (stepPerm cwd s (PermEvent.timeout approvalId)) :=
    permInv_step cwd _ hinv
  rw [runFrom_closed cwd evs hinv2 hclosed hlt2, hafter]

/-- Witness for `timeout_denies_exactly_once`: the reachable state `sW4` has a
pending approval `id1`; after the timeout (and even after a late approve
click), its response log is exactly the single timeout-deny entry. -/
theorem timeout_denies_exactly_once_witness :
    mapGet "id1" sW4.pending = some pW4 ∧
    responsesFor (runPermFrom "/" (stepPerm "/" sW4 (PermEvent.timeout "id1"))
        [PermEvent.resolve "id1" true]) pW4.httpRes =
      [{ handle := pW4.httpRes, status := 200, behavior := some Behavior.deny,
         message := some "Permission request timed out", viaId := some "id1" }] :=
  ⟨by decide, timeout_denies_exactly_once "/" sW4 "id1" pW4 ⟨[evW4], rfl⟩ (by decide)
    [PermEvent.resolve "id1" true]⟩

theorem resolveApproval_pending (approvalId : String) (b : Bool) (s : PermState) :
    (resolveApproval approvalId b s).pending = mapDelete approvalId s.pending := by
  unfold resolveApproval
  cases hget : mapGet approvalId s.pending with
  | none => simp [mapDelete_of_get_none hget]
  | some p =>
    dsimp only
    cases truthy p.workingDirectory with
    | none => exact respond_pending _ _ _ _
    | some d =>
      dsimp only
      cases b with
      | false => exact respond_pending _ _ _ _
      | true => exact respond_pending _ _ _ _

theorem resolveApproval_none (approvalId : String) (b : Bool) (t : PermState)
    (h : mapGet approvalId t.pending = none) : resolveApproval approvalId b t = t := by
  unfold resolveApproval
  rw [h]

theorem timeoutFire_none (approvalId : String) (t : PermState)
    (h : mapGet approvalId t.pending = none) : timeoutFire approvalId t = t := by
  unfold timeoutFire
  rw [if_neg (by simp [h])]

theorem foldl_respond_pending (msg : String) :
    ∀ (l : List (String × PendingPermission)) (t : PermState),
      (∀ kp ∈ t.pending, kp.1 ∈ l.map Prod.fst) →
      (l.foldl (fun acc kp => respond kp.1 false msg acc) t).pending = [] := by
  intro l
  induction l with
  | nil =>
    intro t ht
    rcases hl : t.pending with _ | ⟨kp, rest⟩
    · exact hl
    · exact absurd (ht kp (by rw [hl]; exact List.mem_cons_self _ _)) (by simp)
  | cons kp0 rest ih =>
    intro t ht
    rw [List.foldl_cons]
    apply ih
    intro kp hkp
    rw [respond_pending] at hkp
    have hmem : kp ∈ t.pending := List.mem_of_mem_filter hkp
    have hne : kp.1 ≠ kp0.1 := by simpa using List.of_mem_filter hkp
    have := ht kp hmem
    simp only [List.map_cons, List.mem_cons] at this
    rcases this with hc | hc
    · exact absurd hc hne
    · simpa using hc

theorem stopHandler_pending (t : PermState) : (stopHandler t).pending = [] :=
  foldl_respond_pending _ t.pending t
    (fun kp hkp => List.mem_map.mpr ⟨kp, hkp, rfl⟩)

theorem respond_via_ne (k approvalId : String) (b : Bool) (msg : String) (t : PermState)
    (h : k ≠ approvalId) :
    responsesVia (respond k b msg t) approvalId = responsesVia t approvalId := by
  unfold respond
  cases hget : mapGet k t.pending with
  | none => rfl
  | some p =>
    dsimp only
    unfold responsesVia
    rw [List.filter_append]
    have : ¬ ((some k : Option String) == some approvalId) = true := by
      simp [h]
    simp [this]

theorem foldl_respond_via (msg approvalId : String) :
    ∀ (l : List (String × PendingPermission)) (t : PermState),
      approvalId ∉ l.map Prod.fst →
      responsesVia (l.foldl (fun acc kp => respond kp.1 false msg acc) t) approvalId =
        responsesVia t approvalId := by
  intro l
  induction l with
  | nil => exact fun t _ => rfl
  | cons kp0 rest ih =>
    intro t ht
    simp only [List.map_cons, List.mem_cons] at ht
    push_neg at ht
    rw [List.foldl_cons, ih _ ht.2]
    exact respond_via_ne _ _ _ _ _ (fun hc => ht.1 hc.symm)

/-- C5: resolving an approval id a second time has no observable effect.  The
first resolution (approve, deny, timeout, or shutdown) deletes the
`PendingPermission` record; afterwards, any approve/deny or timeout for that
id leaves the whole state exactly unchanged, and a shutdown writes no
response via that id (and still leaves no pending record for it). -/
theorem second_resolution_noop (s : PermState) (approvalId : String) (p : PendingPermission)
    (b b2 : Bool) (hp : mapGet approvalId s.pending = some p) :
    mapGet approvalId (resolveApproval approvalId b s).pending = none ∧
    mapGet approvalId (timeoutFire approvalId s).pending = none ∧
    (stopHandler s).pending = [] ∧
    (∀ t : PermState, mapGet approvalId t.pending = none →
      resolveApproval approvalId b2 t = t ∧
      timeoutFire approvalId t = t ∧
      responsesVia (stopHandler t) approvalId = responsesVia t approvalId ∧
      (stopHandler t).pending = []) := by
  refine ⟨?_, ?_, stopHandler_pending s, ?_⟩
  · rw [resolveApproval_pending]
    exact mapGet_mapDelete_self _ _
  · unfold timeoutFire
    rw [if_pos (by simp [hp]), respond_pending]
    exact mapGet_mapDelete_self _ _
  · intro t ht
    refine ⟨resolveApproval_none _ _ _ ht, timeoutFire_none _ _ ht, ?_, stopHandler_pending t⟩
    apply foldl_respond_via
    intro hc
    obtain ⟨kp, hkp, hkeq⟩ := List.mem_map.mp hc
    rw [mapGet_eq_none_iff] at ht
    exact ht kp hkp hkeq

/-- Witness for `second_resolution_noop`: the reachable state `sW5` has a
pending approval `id2`; after a first denial the record is gone and a second
approve attempt is an exact no-op. -/
theorem second_resolution_noop_witness :
    mapGet "id2" sW5.pending = some pW5 ∧
    mapGet "id2" (resolveApproval "id2" false sW5).pending = none ∧
    resolveApproval "id2" true (resolveApproval "id2" false sW5) =
      resolveApproval "id2" false sW5 := by
  have h := second_resolution_noop sW5 "id2" pW5 false true (by decide)
  exact ⟨by decide, h.1, (h.2.2.2 (resolveApproval "id2" false sW5) h.1).1⟩

theorem respond_responses_of_some (approvalId : String) (b : Bool) (msg : String)
    {s : PermState} {p : PendingPermission} (h : mapGet approvalId s.pending = some p) :
    (respond approvalId b msg s).responses = s.responses ++
      [{ handle := p.httpRes, status := 200,
         behavior := some (if b then Behavior.allow else Behavior.deny),
         message := some msg, viaId := some approvalId }] := by
  unfold respond
  rw [h]

theorem mem_respond_responses (k : String) (msg : String) {t : PermState} {r : HttpResponse}
    (hr : r ∈ (respond k false msg t).responses) :
    r ∈ t.responses ∨ (r.behavior = some Behavior.deny ∧ r.message = some msg) := by
  unfold respond at hr
  cases hget : mapGet k t.pending with
  | none =>
    rw [hget] at hr
    exact Or.inl hr
  | some p =>
    rw [hget] at hr
    dsimp only at hr
    rcases List.mem_append.mp hr with hc | hc
    · exact Or.inl hc
    · simp only [List.mem_singleton] at hc
      subst hc
      exact Or.inr ⟨rfl, rfl⟩

theorem foldl_respond_approvedTools (msg : String) :
    ∀ (l : List (String × PendingPermission)) (t : PermState),
      (l.foldl (fun acc kp => respond kp.1 false msg acc) t).approvedTools =
        t.approvedTools := by
  intro l
  induction l with
  | nil => exact fun t => rfl
  | cons kp0 rest ih =>
    intro t
    rw [List.foldl_cons, ih, (respond_frame _ _ _ _).1]

theorem foldl_respond_responses (msg : String) :
    ∀ (l : List (String × PendingPermission)) (t : PermState) (r : HttpResponse),
      r ∈ (l.foldl (fun acc kp => respond kp.1 false msg acc) t).responses →
      r ∈ t.responses ∨ (r.behavior = some Behavior.deny ∧ r.message = some msg) := by
  intro l
  induction l with
  | nil => exact fun t r hr => Or.inl hr
  | cons kp0 rest ih =>
    intro t r hr
    rw [List.foldl_cons] at hr
    rcases ih _ r hr with hc | hc
    · exact mem_respond_responses _ _ hc
    · exact Or.inr hc

/-- C8: resolving by human denial, timeout, or shutdown leaves the Approval
Memory (`approvedTools`) exactly unchanged and completes the deferred
response with `deny` and a message distinguishing the cause (`Denied by
user` / `Permission request timed out` / `Server shutting down`); only a
human approval that carried a (truthy) working directory changes the memory,
and then exactly by `rememberApproval`. -/
theorem resolution_preserves_memory (s : PermState) (approvalId : String)
    (p : PendingPermission) (hp : mapGet approvalId s.pending = some p) :
    ((resolveApproval approvalId false s).approvedTools = s.approvedTools ∧
      (resolveApproval approvalId false s).responses = s.responses ++
        [{ handle := p.httpRes, status := 200, behavior := some Behavior.deny,
           message := some "Denied by user", viaId := some approvalId }]) ∧
    ((timeoutFire approvalId s).approvedTools = s.approvedTools ∧
      (timeoutFire approvalId s).responses = s.responses ++
        [{ handle := p.httpRes, status := 200, behavior := some Behavior.deny,
           message := some "Permission request timed out", viaId := some approvalId }]) ∧
    ((stopHandler s).approvedTools = s.approvedTools ∧
      ∀ r ∈ (stopHandler s).responses, r ∈ s.responses ∨
        (r.behavior = some Behavior.deny ∧ r.message = some "Server shutting down")) ∧
    (truthy p.workingDirectory = none →
      (resolveApproval approvalId true s).approvedTools = s.approvedTools) ∧
    (∀ d, truthy p.workingDirectory = some d →
      (resolveApproval approvalId true s).approvedTools =
        (rememberApproval p.toolName d s).approvedTools) := by
  refine ⟨?_, ?_, ?_, ?_, ?_⟩
  · constructor
    · show (resolveApproval approvalId false s).approvedTools = s.approvedTools
      unfold resolveApproval
      rw [hp]
      dsimp only
      cases truthy p.workingDirectory with
      | none => exact (respond_frame _ _ _ _).1
      | some d => exact (respond_frame _ _ _ _).1
    · show (resolveApproval approvalId false s).responses = _
      unfold resolveApproval
      rw [hp]
      dsimp only
      cases truthy p.workingDirectory with
      | none => exact respond_responses_of_some _ _ _ hp
      | some d => exact respond_responses_of_some _ _ _ hp
  · constructor
    · show (timeoutFire approvalId s).approvedTools = s.approvedTools
      unfold timeoutFire
      rw [if_pos (by simp [hp])]
      exact (respond_frame _ _ _ _).1
    · show (timeoutFire approvalId s).responses = _
      unfold timeoutFire
      rw [if_pos (by simp [hp])]
      exact respond_responses_of_some _ _ _ hp
  · exact ⟨foldl_respond_approvedTools _ s.pending s,
      fun r hr => foldl_respond_responses _ s.pending s r hr⟩
  · intro htr
    unfold resolveApproval
    rw [hp]
    dsimp only
    rw [htr]
    exact (respond_frame _ _ _ _).1
  · intro d htr
    unfold resolveApproval
    rw [hp]
    dsimp only
    rw [htr]
    exact (respond_frame _ _ _ _).1

/-- Witness for `resolution_preserves_memory` at the reachable states `sW5`
(pending approval with a working directory) and `sW4` (pending approval
without one). -/
theorem resolution_preserves_memory_witness :
    mapGet "id2" sW5.pending = some pW5 ∧
    (resolveApproval "id2" false sW5).approvedTools = sW5.approvedTools ∧
    mapGet "id1" sW4.pending = some pW4 ∧
    (resolveApproval "id1" true sW4).approvedTools = sW4.approvedTools ∧
    (resolveApproval "id2" true sW5).approvedTools =
      (rememberApproval pW5.toolName "/repo" sW5).approvedTools := by
  have h5 := resolution_preserves_memory sW5 "id2" pW5 (by decide)
  have h4 := resolution_preserves_memory sW4 "id1" pW4 (by decide)
  exact ⟨by decide, h5.1.1, by decide, h4.2.2.2.1 (by decide),
    h5.2.2.2.2 "/repo" (by decide)⟩

/-- C3: if tool `T` is remembered for working directory `D`, a later request
for `T` carrying working directory `D` whose extracted target path resolves
into `D` is answered `allow` immediately — no `PendingPermission` is created
and no prompt is posted (the state changes only by the allow response) —
while a request whose target resolves outside `D` is not auto-allowed and
instead creates a `PendingPermission` and posts a prompt (and writes no
response). -/
theorem approved_directory_scoping (cwd : String) (s : PermState) (T D : String)
    (input : ToolInput) (ch : String) (th u : Option String) (approvalId ts : String)
    (tools : List String) (tp : String)
    (hD : D ≠ "") (happ : mapGet D s.approvedTools = some tools) (hT : T ∈ tools)
    (htp : extractToolTargetPath T input = some tp) :
    (isPathWithinDirectory cwd tp D = true →
      stepPerm cwd s (PermEvent.request approvalId (PostResult.success ts) HttpMethod.post
          "/permission-request"
          (some { tool_name := T, input := input, channel := ch, thread_ts := th, user := u,
                  working_directory := some D })) =
        { s with nextHandle := s.nextHandle + 1,
                 responses := s.responses ++
                   [{ handle := s.nextHandle, status := 200, behavior := some Behavior.allow,
                      message := some "Auto-approved (previously approved for this directory)",
                      viaId := none }] }) ∧
    (isPathWithinDirectory cwd tp D = false →
      stepPerm cwd s (PermEvent.request approvalId (PostResult.success ts) HttpMethod.post
          "/permission-request"
          (some { tool_name := T, input := input, channel := ch, thread_ts := th, user := u,
                  working_directory := some D })) =
        { s with nextHandle := s.nextHandle + 1,
                 pending := mapSet approvalId
                   { httpRes := s.nextHandle, channel := ch, threadTs := th, user := u,
                     toolName := T, input := input, workingDirectory := some D,
                     messageTs := some ts } s.pending,
                 prompts := s.prompts ++ [(approvalId, T)] }) := by
  have hauto : ∀ t2 : PermState, t2.approvedTools = s.approvedTools →
      isAutoApproved cwd t2 T input D = isPathWithinDirectory cwd tp D := by
    intro t2 ht2
    unfold isAutoApproved
    rw [ht2, happ]
    dsimp only
    rw [if_pos hT, htp]
  have htr : truthy (some D) = some D := by simp [truthy, hD]
  constructor
  · intro hin
    dsimp only [stepPerm]
    unfold handleRequest
    rw [if_pos ⟨rfl, rfl⟩]
    dsimp only
    unfold handlePermissionRequest
    dsimp only
    rw [htr]
    dsimp only
    rw [hauto { s with nextHandle := s.nextHandle + 1 } rfl, hin]
    rfl
  · intro hout
    dsimp only [stepPerm]
    unfold handleRequest
    rw [if_pos ⟨rfl, rfl⟩]
    dsimp only
    unfold handlePermissionRequest
    dsimp only
    rw [htr]
    dsimp only
    rw [hauto { s with nextHandle := s.nextHandle + 1 } rfl, hout]
    rw [if_neg (by simp)]
    unfold promptUser
    dsimp only
    rw [mapSet_mapSet_same]

/-- Witness for `approved_directory_scoping` at `sApproved` (`Write` approved
for `/repo`): a `Write` of `/repo/sub/x.txt` is auto-allowed with no pending
approval and no prompt, while a `Write` of `/etc/passwd` prompts instead. -/
theorem approved_directory_scoping_witness :
    (stepPerm "/" sApproved (PermEvent.request "id3" (PostResult.success "ts3") HttpMethod.post
        "/permission-request"
        (some { tool_name := "Write", input := { file_path := some "/repo/sub/x.txt" },
                channel := "C", thread_ts := none, user := none,
                working_directory := some "/repo" })) =
      { sApproved with nextHandle := 4,
                       responses :=
                         [{ handle := 3, status := 200, behavior := some Behavior.allow,
                            message :=
                              some "Auto-approved (previously approved for this directory)",
                            viaId := none }] }) ∧
    (stepPerm "/" sApproved (PermEvent.request "id3" (PostResult.success "ts3") HttpMethod.post
        "/permission-request"
        (some { tool_name := "Write", input := { file_path := some "/etc/passwd" },
                channel := "C", thread_ts := none, user := none,
                working_directory := some "/repo" })) =
      { sApproved with nextHandle := 4,
                       pending :=
                         [("id3",
                           { httpRes := 3, channel := "C", threadTs := none, user := none,
                             toolName := "Write",
                             input := { file_path := some "/etc/passwd" },
                             workingDirectory := some "/repo",
                             messageTs := some "ts3" })],
                       prompts := [("id3", "Write")] }) :=
  ⟨(approved_directory_scoping "/" sApproved "Write" "/repo"
      { file_path := some "/repo/sub/x.txt" } "C" none none "id3" "ts3" ["Write"]
      "/repo/sub/x.txt" (by decide) (by decide) (by decide) (by decide)).1 (by decide),
   (approved_directory_scoping "/" sApproved "Write" "/repo"
      { file_path := some "/etc/passwd" } "C" none none "id3" "ts3" ["Write"]
      "/etc/passwd" (by decide) (by decide) (by decide) (by decide)).2 (by decide)⟩

/-- C9: a `POST /permission-request` with an unparseable body is answered
`400` with `deny` / `Invalid request` and mutates nothing else (no pending
approval, no prompt, memory untouched); any other path or method is answered
`404`. -/
theorem invalid_request_rejected (cwd approvalId : String) (post : PostResult)
    (s : PermState) (method : HttpMethod) (url : String) :
    (stepPerm cwd s (PermEvent.request approvalId post HttpMethod.post "/permission-request"
        none) =
      { s with nextHandle := s.nextHandle + 1,
               responses := s.responses ++
                 [{ handle := s.nextHandle, status := 400, behavior := some Behavior.deny,
                    message := some "Invalid request", viaId := none }] }) ∧
    (¬ (method = HttpMethod.post ∧ url = "/permission-request") → ∀ body,
      stepPerm cwd s (PermEvent.request approvalId post method url body) =
        { s with nextHandle := s.nextHandle + 1,
                 responses := s.responses ++
                   [{ handle := s.nextHandle, status := 404, behavior := none,
                      message := none, viaId := none }] }) := by
  constructor
  · dsimp only [stepPerm]
    unfold handleRequest
    rw [if_pos ⟨rfl, rfl⟩]
  · intro hmu body
    dsimp only [stepPerm]
    unfold handleRequest
    rw [if_neg hmu]

/-- Witness for `invalid_request_rejected`: an unparseable body gets the 400
deny, and a GET to another path gets a 404. -/
theorem invalid_request_rejected_witness :
    (stepPerm "/" permInit (PermEvent.request "idx" PostResult.failure HttpMethod.post
        "/permission-request" none) =
      { permInit with nextHandle := 1,
                      responses := [{ handle := 0, status := 400,
                                      behavior := some Behavior.deny,
                                      message := some "Invalid request", viaId := none }] }) ∧
    (stepPerm "/" permInit (PermEvent.request "idx" PostResult.failure HttpMethod.other
        "/somewhere" none) =
      { permInit with nextHandle := 1,
                      responses := [{ handle := 0, status := 404, behavior := none,
                                      message := none, viaId := none }] }) := by
  have h := invalid_request_rejected "/" "idx" PostResult.failure permInit HttpMethod.other
    "/somewhere"
  exact ⟨h.1, h.2 (by simp) none⟩

theorem resolvePath_of_absolute (cwd p : String) (h : strStartsWith p "/" = true) :
    resolvePath cwd p = "/" ++ joinSlash (normalizeSegments (splitSlash p)) := by
  unfold resolvePath
  rw [if_pos h]

theorem isPathWithinDirectory_absolute (cwd t d : String) (ht : strStartsWith t "/" = true)
    (hd : strStartsWith d "/" = true) :
    isPathWithinDirectory cwd t d = isPathWithinDirectory "" t d := by
  unfold isPathWithinDirectory
  rw [resolvePath_of_absolute cwd t ht, resolvePath_of_absolute cwd d hd,
    resolvePath_of_absolute "" t ht, resolvePath_of_absolute "" d hd]

/-- C10: the containment test holds exactly when the resolved target equals
the resolved directory or extends it by the path separator; a sibling
directory whose name merely extends the approved directory's name as a string
(`/repo2/x` against `/repo`) is not within it, and `..` segments are
normalized before the comparison, so traversal out of the directory
(`/repo/../etc/passwd` against `/repo`) is not within it either — for any
process working directory. -/
theorem path_containment (cwd t d : String) :
    isPathWithinDirectory cwd t d =
      (resolvePath cwd t == resolvePath cwd d ||
        strStartsWith (resolvePath cwd t) (resolvePath cwd d ++ "/")) ∧
    isPathWithinDirectory cwd "/repo2/x" "/repo" = false ∧
    isPathWithinDirectory cwd "/repo/../etc/passwd" "/repo" = false ∧
    isPathWithinDirectory cwd "/repo/sub/x" "/repo" = true ∧
    isPathWithinDirectory cwd "/repo" "/repo" = true := by
  refine ⟨rfl, ?_, ?_, ?_, ?_⟩ <;>
    rw [isPathWithinDirectory_absolute cwd _ _ (by decide) (by decide)] <;> decide

end SlackBot
